import Mathlib

/-!
Verification of the Glasgow PDM microphone applet
(`software/glasgow/applet/audio/pdm_mic/__init__.py`).

The development shallowly embeds the three ingredients of the applet:

* `FIFOStreamer.elaborate` — a three-state machine (`IDLE`, `REPORT_OVERRUN`,
  `WAIT`) gating writes into the output FIFO, modelled by `streamerStep`;
* `PDMCaptureSubtarget.elaborate` — the three-state sampling machine
  (`REPORT`, `WAIT_RISING_EDGE`, `WAIT_FALLING_EDGE`) together with the
  channel-interleave permutation, modelled by `pdmStep`;
* `AudioPDMApplet.interact` — the host consumer loop, modelled by
  `runLoop` / `interact` with an explicit write-failure oracle and an
  `Except`-based rendering of Python's `try`/`except`/`finally`.

Synchronous registers are passed explicitly; each step function consumes the
per-cycle inputs of the corresponding hardware block and machine integers are
`Nat`s reduced modulo the signal width where the hardware truncates.
-/

namespace PdmMic

/-! ## FIFO streamer (`FIFOStreamer`) -/

/-- FSM states of `FIFOStreamer.elaborate`. -/
inductive StrFsm where
  | idle
  | reportOverrun
  | wait
  deriving DecidableEq

/-- Per-cycle inputs of the streamer: the `strobe` input, the FIFO's
`w_rdy` signal, and the value on the `data` port during that cycle. -/
structure StrIn where
  strobe : Bool
  rdy : Bool
  data : Nat
  deriving DecidableEq

/-- One synchronous cycle of `FIFOStreamer` with data width `w`
(the constructor asserts `width > 0 and width <= 7`): the next FSM state and
the byte driven into the FIFO (`w_data` with `w_en` high), if any.
The data port is `w` bits wide, hence the value is reduced `% 2 ^ w`. -/
def streamerStep (w : Nat) (s : StrFsm) (i : StrIn) : StrFsm × Option Nat :=
  match s with
  | .idle =>
      if i.strobe = true then
        if i.rdy = true then (.wait, some (i.data % 2 ^ w))
        else (.reportOverrun, none)
      else (.idle, none)
  | .reportOverrun =>
      if i.rdy = true then (.idle, some 255) else (.reportOverrun, none)
  | .wait => (.idle, none)

/-- The sequence of bytes the streamer writes into the FIFO while running
from state `s` over the input trace `ins`. -/
def streamerWrites (w : Nat) (s : StrFsm) : List StrIn → List Nat
  | [] => []
  | i :: t =>
    match streamerStep w s i with
    | (s', none) => streamerWrites w s' t
    | (s', some b) => b :: streamerWrites w s' t

/-- Number of cycles in the trace on which `strobe` is asserted. -/
def countStrobes : List StrIn → Nat
  | [] => 0
  | i :: t => (if i.strobe = true then 1 else 0) + countStrobes t

/-- Expected write trace from `REPORT_OVERRUN`: skip cycles until `w_rdy`,
write the sentinel `0xFF` there, and resume normal operation from `IDLE`. -/
def overrunResume (w : Nat) : List StrIn → List Nat
  | [] => []
  | i :: t =>
    if i.rdy = true then 255 :: streamerWrites w .idle t else overrunResume w t

/-- Expected write trace when the FIFO always has room and strobes are
separated: one masked data byte per strobed cycle. -/
def strobedData (w : Nat) : List StrIn → List Nat
  | [] => []
  | i :: t =>
    if i.strobe = true then i.data % 2 ^ w :: strobedData w t
    else strobedData w t

/-- A strobe pattern with no two strobes on consecutive cycles (the clock
generator's falling-edge strobe fires at most once per generated clock
period, i.e. at least two reference cycles apart). -/
def sepStrobes : List StrIn → Bool
  | [] => true
  | [_] => true
  | x :: y :: t => (!(x.strobe && y.strobe)) && sepStrobes (y :: t)

/-- One unresolved overrun report pending in a streamer state. -/
def pendingW : StrFsm → Nat
  | .reportOverrun => 1
  | _ => 0

theorem streamerWrites_length_le (w : Nat) :
    ∀ (ins : List StrIn) (s : StrFsm),
      (streamerWrites w s ins).length ≤ countStrobes ins + pendingW s := by
  intro ins
  induction ins with
  | nil => intro s; simp [streamerWrites]
  | cons i t ih =>
    intro s
    cases s with
    | idle =>
      cases hs : i.strobe with
      | false =>
        have h := ih .idle
        simp [streamerWrites, streamerStep, countStrobes, hs, pendingW] at h ⊢
        omega
      | true =>
        cases hr : i.rdy with
        | false =>
          have h := ih .reportOverrun
          simp [streamerWrites, streamerStep, countStrobes, hs, hr, pendingW] at h ⊢
          omega
        | true =>
          have h := ih .wait
          simp [streamerWrites, streamerStep, countStrobes, hs, hr, pendingW] at h ⊢
          omega
    | reportOverrun =>
      cases hr : i.rdy with
      | false =>
        have h := ih .reportOverrun
        simp [streamerWrites, streamerStep, countStrobes, hr, pendingW] at h ⊢
        omega
      | true =>
        have h := ih .idle
        simp [streamerWrites, streamerStep, countStrobes, hr, pendingW] at h ⊢
        omega
    | wait =>
      have h := ih .idle
      simp [streamerWrites, streamerStep, countStrobes, pendingW] at h ⊢
      omega

theorem sepStrobes_tail {x : StrIn} {t : List StrIn}
    (h : sepStrobes (x :: t) = true) : sepStrobes t = true := by
  cases t with
  | nil => rfl
  | cons y u =>
    have := h
    simp [sepStrobes] at this
    simpa [sepStrobes] using this.2

theorem streamerWrites_idle_eq (w : Nat) :
    ∀ (n : Nat) (ins : List StrIn), ins.length ≤ n →
      (∀ x ∈ ins, x.strobe = true → x.rdy = true) →
      sepStrobes ins = true →
      streamerWrites w .idle ins = strobedData w ins := by
  intro n
  induction n with
  | zero =>
    intro ins h _ _
    cases ins with
    | nil => rfl
    | cons x t => simp at h
  | succ n ih =>
    intro ins hlen hrdy hsep
    cases ins with
    | nil => rfl
    | cons x t =>
      cases hx : x.strobe with
      | false =>
        have ht := ih t (by simpa using Nat.le_of_succ_le_succ (by simpa using hlen))
          (fun y hy => hrdy y (List.mem_cons_of_mem x hy)) (sepStrobes_tail hsep)
        simp [streamerWrites, streamerStep, strobedData, hx, ht]
      | true =>
        have hxr : x.rdy = true := hrdy x (List.mem_cons_self x t) hx
        cases t with
        | nil =>
          simp [streamerWrites, streamerStep, strobedData, hx, hxr]
        | cons y u =>
          have hy : y.strobe = false := by
            have := hsep
            simp [sepStrobes, hx] at this
            exact this.1
          have hu : streamerWrites w .idle u = strobedData w u := by
            refine ih u ?_ (fun z hz => hrdy z ?_) ?_
            · have : u.length + 2 ≤ n + 1 := by simpa using hlen
              omega
            · exact List.mem_cons_of_mem x (List.mem_cons_of_mem y hz)
            · exact sepStrobes_tail (sepStrobes_tail hsep)
          simp [streamerWrites, streamerStep, strobedData, hx, hxr, hy, hu]

theorem strobedData_length (w : Nat) :
    ∀ ins : List StrIn, (strobedData w ins).length = countStrobes ins := by
  intro ins
  induction ins with
  | nil => rfl
  | cons x t ih =>
    cases hx : x.strobe with
    | false => simp [strobedData, countStrobes, hx, ih]
    | true => simp [strobedData, countStrobes, hx, ih]; omega

theorem strobedData_no_sentinel (w : Nat) (h7 : w ≤ 7) :
    ∀ ins : List StrIn,
      (strobedData w ins).all (fun b => b != 255) = true := by
  have h128 : 2 ^ w ≤ 128 := by
    calc 2 ^ w ≤ 2 ^ 7 := Nat.pow_le_pow_right (by omega) h7
    _ = 128 := by norm_num
  intro ins
  induction ins with
  | nil => rfl
  | cons x t ih =>
    cases hx : x.strobe with
    | false => simpa [strobedData, hx] using ih
    | true =>
      have hlt : x.data % 2 ^ w < 2 ^ w := Nat.mod_lt _ (Nat.pos_pow_of_pos w (by omega))
      have : x.data % 2 ^ w ≠ 255 := by omega
      simp [strobedData, hx, List.all_cons, ih, this]

/-- C3: in `IDLE`, a strobe with the FIFO full produces no write (the sample
present on `data` is dropped for good — the argument `d` does not appear in
the continuation) and the machine enters `REPORT_OVERRUN`; from
`REPORT_OVERRUN`, over an arbitrary continuation trace, the very next byte
written — on the first cycle with `w_rdy` — is the sentinel `0xFF`, after
which the machine is back in `IDLE` and resumes normal operation
(`overrunResume` spells this shape out). -/
theorem c3_overrun_report (w d : Nat) (ins : List StrIn) :
    streamerStep w .idle ⟨true, false, d⟩ = (.reportOverrun, none)
    ∧ streamerWrites w .reportOverrun ins = overrunResume w ins := by
  refine ⟨rfl, ?_⟩
  induction ins with
  | nil => rfl
  | cons x t ih =>
    cases hx : x.rdy with
    | false => simpa [streamerWrites, streamerStep, overrunResume, hx] using ih
    | true => simp [streamerWrites, streamerStep, overrunResume, hx]

/-- C4 (counterexample): with the FIFO ready at every cycle but two strobes
on consecutive cycles, the second strobe falls into the `WAIT` cooldown and
produces no byte, so not every strobe yields a write. -/
theorem c4_counterexample :
    ([⟨true, true, 1⟩, ⟨true, true, 2⟩] : List StrIn).all (fun x => x.rdy) = true
    ∧ (streamerWrites 6 .idle [⟨true, true, 1⟩, ⟨true, true, 2⟩]).length
        ≠ countStrobes [⟨true, true, 1⟩, ⟨true, true, 2⟩] := by
  decide

/-- C4 (amended): over any trace the streamer never performs more queue
writes than there are strobes, and each cycle's write is one of `none`, the
masked data byte, or the sentinel; moreover, provided no two strobes occur on
consecutive cycles (as the clock generator guarantees) and the queue has room
at every strobe, every strobe produces exactly one data byte and the sentinel
is never written. -/
theorem c4_amended (w : Nat) (ins ins2 : List StrIn) (s : StrFsm) (i : StrIn)
    (h0 : 0 < w) (h7 : w ≤ 7)
    (hsep : sepStrobes ins = true)
    (hrdy : ∀ x ∈ ins, x.strobe = true → x.rdy = true) :
    streamerWrites w .idle ins = strobedData w ins
    ∧ (streamerWrites w .idle ins).length = countStrobes ins
    ∧ (streamerWrites w .idle ins).all (fun b => b != 255) = true
    ∧ (streamerWrites w .idle ins2).length ≤ countStrobes ins2
    ∧ ((streamerStep w s i).2 = none
        ∨ (streamerStep w s i).2 = some (i.data % 2 ^ w)
        ∨ (streamerStep w s i).2 = some 255) := by
  have hmain := streamerWrites_idle_eq w ins.length ins le_rfl hrdy hsep
  refine ⟨hmain, ?_, ?_, ?_, ?_⟩
  · rw [hmain]; exact strobedData_length w ins
  · rw [hmain]; exact strobedData_no_sentinel w h7 ins
  · have h := streamerWrites_length_le w ins2 .idle
    simpa [pendingW] using h
  · cases s with
    | idle =>
      cases hs : i.strobe with
      | false => simp [streamerStep, hs]
      | true =>
        cases hr : i.rdy with
        | false => simp [streamerStep, hs, hr]
        | true => simp [streamerStep, hs, hr]
    | reportOverrun =>
      cases hr : i.rdy with
      | false => simp [streamerStep, hr]
      | true => simp [streamerStep, hr]
    | wait => simp [streamerStep]

/-- C4 (witness): the amended statement instantiated at a concrete separated,
always-ready trace. -/
theorem c4_witness :
    (0 < 6 ∧ 6 ≤ 7
      ∧ sepStrobes [⟨true, true, 5⟩, ⟨false, true, 0⟩, ⟨true, true, 200⟩] = true
      ∧ (∀ x ∈ ([⟨true, true, 5⟩, ⟨false, true, 0⟩, ⟨true, true, 200⟩] : List StrIn),
          x.strobe = true → x.rdy = true))
    ∧ (streamerWrites 6 .idle [⟨true, true, 5⟩, ⟨false, true, 0⟩, ⟨true, true, 200⟩]
        = strobedData 6 [⟨true, true, 5⟩, ⟨false, true, 0⟩, ⟨true, true, 200⟩]
      ∧ (streamerWrites 6 .idle
          [⟨true, true, 5⟩, ⟨false, true, 0⟩, ⟨true, true, 200⟩]).length
        = countStrobes [⟨true, true, 5⟩, ⟨false, true, 0⟩, ⟨true, true, 200⟩]
      ∧ (streamerWrites 6 .idle
          [⟨true, true, 5⟩, ⟨false, true, 0⟩, ⟨true, true, 200⟩]).all
            (fun b => b != 255) = true
      ∧ (streamerWrites 6 .idle [⟨true, false, 0⟩]).length
          ≤ countStrobes [⟨true, false, 0⟩]
      ∧ ((streamerStep 6 .reportOverrun ⟨false, true, 3⟩).2 = none
          ∨ (streamerStep 6 .reportOverrun ⟨false, true, 3⟩).2
              = some ((⟨false, true, 3⟩ : StrIn).data % 2 ^ 6)
          ∨ (streamerStep 6 .reportOverrun ⟨false, true, 3⟩).2 = some 255)) :=
  ⟨⟨by decide, by decide, by decide, by decide⟩,
    c4_amended 6 [⟨true, true, 5⟩, ⟨false, true, 0⟩, ⟨true, true, 200⟩]
      [⟨true, false, 0⟩] .reportOverrun ⟨false, true, 3⟩
      (by decide) (by decide) (by decide) (by decide)⟩

/-- C8 (counterexample): at the all-ones 6-bit sample word (value 63) the
byte written in `IDLE` is `0x3F`, not the sentinel `0xFF` — the claimed
aliasing input does not produce the sentinel. -/
theorem c8_counterexample :
    streamerStep 6 .idle ⟨true, true, 63⟩ = (.wait, some 63)
    ∧ (63 : Nat) ≠ 255 := by
  decide

/-- C8 (amended): no data byte ever equals the sentinel. For any legal width
(`0 < w ≤ 7`, enforced by the constructor's assertion) the byte written in
`IDLE` is the zero-extended `w`-bit word, hence below `0x80` and in
particular never `0xFF`: the sentinel does not alias any data byte. -/
theorem c8_amended (w d : Nat) (h1 : 0 < w) (h2 : w ≤ 7) :
    streamerStep w .idle ⟨true, true, d⟩ = (.wait, some (d % 2 ^ w))
    ∧ d % 2 ^ w < 128 ∧ d % 2 ^ w ≠ 255 := by
  have hp : 0 < 2 ^ w := Nat.pos_pow_of_pos w (by omega)
  have hlt : d % 2 ^ w < 2 ^ w := Nat.mod_lt _ hp
  have hle : 2 ^ w ≤ 128 := by
    calc 2 ^ w ≤ 2 ^ 7 := Nat.pow_le_pow_right (by omega) h2
    _ = 128 := by norm_num
  exact ⟨rfl, by omega, by omega⟩

/-- C8 (witness): the amended statement at width 6 and the all-ones word. -/
theorem c8_witness :
    (0 < 6 ∧ 6 ≤ 7)
    ∧ (streamerStep 6 .idle ⟨true, true, 63⟩ = (.wait, some (63 % 2 ^ 6))
        ∧ 63 % 2 ^ 6 < 128 ∧ 63 % 2 ^ 6 ≠ 255) :=
  ⟨⟨by decide, by decide⟩, c8_amended 6 63 (by decide) (by decide)⟩

/-! ## Sampling state machine (`PDMCaptureSubtarget`)

The applet always builds with a pin set of width 3 (`add_pin_set_argument`
uses `width=3`), so the embedding fixes `n = 3`: `pins_current` is a 6-bit
register split into its rising half `pcR = pins_current[:3]` and falling
half `pcF = pins_current[3:]`, `counter` and `counter_prev` are 6-bit, and
the synchronized pin value `pins_i` is 3-bit. -/

/-- FSM states of the sampling machine in `PDMCaptureSubtarget.elaborate`. -/
inductive PFsm where
  | report
  | waitRise
  | waitFall
  deriving DecidableEq

/-- Synchronous registers of `PDMCaptureSubtarget` (3 channels). -/
structure PState where
  fsm : PFsm
  channels : Nat
  pcR : Nat
  pcF : Nat
  counter : Nat
  counterPrev : Nat
  deriving DecidableEq

/-- Per-cycle inputs: the clock generator strobes `stb_r`/`stb_f` and the
synchronized pin value `pins_i`. -/
structure PIn where
  stbR : Bool
  stbF : Bool
  pins : Nat
  deriving DecidableEq

/-- The bit `i` of `x`, as `0` or `1`. -/
def bitv (x i : Nat) : Nat := if x.testBit i then 1 else 0

/-- The channel-interleave permutation
`Cat(pins_current[0], pins_current[3], pins_current[1], pins_current[4],
pins_current[2], pins_current[5])`, with the rising half `r` holding bits
0‥2 of `pins_current` and the falling half `f` holding bits 3‥5. -/
def interleave (r f : Nat) : Nat :=
  bitv r 0 + 2 * bitv f 0 + 4 * bitv r 1 + 8 * bitv f 1
    + 16 * bitv r 2 + 32 * bitv f 2

/-- One synchronous cycle of the sampling FSM. `REPORT` unconditionally
latches the permuted word into `channels` and `counter` into `counter_prev`;
`WAIT_RISING_EDGE` latches `pins_i` into the low half on `stb_r`;
`WAIT_FALLING_EDGE` latches `pins_i` into the high half and increments the
6-bit counter on `stb_f`. -/
def pdmStep : PState → PIn → PState
  | ⟨.report, _ch, pr, pf, c, _cp⟩, _i => ⟨.waitRise, interleave pr pf, pr, pf, c, c⟩
  | ⟨.waitRise, ch, pr, pf, c, cp⟩, i =>
      if i.stbR = true then ⟨.waitFall, ch, i.pins % 8, pf, c, cp⟩
      else ⟨.waitRise, ch, pr, pf, c, cp⟩
  | ⟨.waitFall, ch, pr, pf, c, cp⟩, i =>
      if i.stbF = true then ⟨.report, ch, pr, i.pins % 8, (c + 1) % 64, cp⟩
      else ⟨.waitFall, ch, pr, pf, c, cp⟩

/-- Power-on state: Amaranth FSMs start in the first declared state
(`REPORT`) and all registers reset to zero. -/
def initP : PState := ⟨.report, 0, 0, 0, 0, 0⟩

/-- The channel words handed to the streamer: `streamer.data` is wired to
`channels` and `streamer.strobe` to `clkgen.stb_f`, so on each cycle with
`stb_f` asserted the streamer consumes the current value of the `channels`
register (the value before this cycle's synchronous updates land). -/
def pdmEmits (s : PState) : List PIn → List Nat
  | [] => []
  | i :: t =>
    if i.stbF = true then s.channels :: pdmEmits (pdmStep s i) t
    else pdmEmits (pdmStep s i) t

/-- An input cycle with both strobes idle. -/
def idleIn (p : Nat) : PIn := ⟨false, false, p⟩

/-- One full bit-clock period as seen by the sampling machine: some idle
cycles, the rising-edge strobe carrying pins `r`, more idle cycles, the
falling-edge strobe carrying pins `f`, and one idle cycle during which the
`REPORT` state runs. -/
structure Period where
  pre : List Nat
  r : Nat
  mid : List Nat
  f : Nat

/-- The input cycles of one period. -/
def periodIns (P : Period) : List PIn :=
  P.pre.map idleIn ++ [⟨true, false, P.r⟩] ++ P.mid.map idleIn
    ++ [⟨false, true, P.f⟩] ++ [idleIn 0]

/-- The input cycles of a run: one initial idle cycle (consumed by the
power-on `REPORT` state) followed by the periods. -/
def schedAux : List Period → List PIn
  | [] => []
  | P :: Ps => periodIns P ++ schedAux Ps

/-- Full input schedule of a run over the given periods. -/
def schedule (Ps : List Period) : List PIn := idleIn 0 :: schedAux Ps

/-- The channel word a period's samples produce. -/
def wordOf (P : Period) : Nat := interleave (P.r % 8) (P.f % 8)

theorem pdmEmits_idles_rise (ps : List Nat) (ch pr pf c cp : Nat)
    (rest : List PIn) :
    pdmEmits ⟨.waitRise, ch, pr, pf, c, cp⟩ (ps.map idleIn ++ rest)
      = pdmEmits ⟨.waitRise, ch, pr, pf, c, cp⟩ rest := by
  induction ps with
  | nil => rfl
  | cons p ps ih => simpa [idleIn, pdmEmits, pdmStep] using ih

theorem pdmEmits_idles_fall (ps : List Nat) (ch pr pf c cp : Nat)
    (rest : List PIn) :
    pdmEmits ⟨.waitFall, ch, pr, pf, c, cp⟩ (ps.map idleIn ++ rest)
      = pdmEmits ⟨.waitFall, ch, pr, pf, c, cp⟩ rest := by
  induction ps with
  | nil => rfl
  | cons p ps ih => simpa [idleIn, pdmEmits, pdmStep] using ih

theorem pdmEmits_period (P : Period) (ch pr pf c cp : Nat) (rest : List PIn) :
    pdmEmits ⟨.waitRise, ch, pr, pf, c, cp⟩ (periodIns P ++ rest)
      = ch :: pdmEmits ⟨.waitRise, wordOf P, P.r % 8, P.f % 8,
          (c + 1) % 64, (c + 1) % 64⟩ rest := by
  simp only [periodIns, List.append_assoc]
  rw [pdmEmits_idles_rise]
  simp only [List.cons_append, List.nil_append]
  have step1 : ∀ l : List PIn,
      pdmEmits ⟨.waitRise, ch, pr, pf, c, cp⟩ (⟨true, false, P.r⟩ :: l)
        = pdmEmits ⟨.waitFall, ch, P.r % 8, pf, c, cp⟩ l := fun l => rfl
  have step2 : ∀ l : List PIn,
      pdmEmits ⟨.waitFall, ch, P.r % 8, pf, c, cp⟩ (⟨false, true, P.f⟩ :: l)
        = ch :: pdmEmits ⟨.report, ch, P.r % 8, P.f % 8, (c + 1) % 64, cp⟩ l :=
    fun l => rfl
  have step3 : ∀ l : List PIn,
      pdmEmits ⟨.report, ch, P.r % 8, P.f % 8, (c + 1) % 64, cp⟩ (idleIn 0 :: l)
        = pdmEmits ⟨.waitRise, wordOf P, P.r % 8, P.f % 8,
            (c + 1) % 64, (c + 1) % 64⟩ l := fun l => rfl
  rw [step1, pdmEmits_idles_fall, step2, step3]

theorem pdmEmits_periods (Ps : List Period) :
    ∀ ch pr pf c cp : Nat,
      pdmEmits ⟨.waitRise, ch, pr, pf, c, cp⟩ (schedAux Ps)
        = List.take Ps.length (ch :: Ps.map wordOf) := by
  induction Ps with
  | nil => intro ch pr pf c cp; rfl
  | cons P Ps ih =>
    intro ch pr pf c cp
    rw [schedAux, pdmEmits_period, ih]
    simp [List.take_succ_cons]

/-- C2: the channel word handed to the FIFO streamer is the fixed interleave
permutation of the two half-registers — in `REPORT` the `channels` register
is loaded with `interleave pcR pcF`, and for every channel `i < 3` bit `2*i`
of the interleave is channel `i`'s rising-edge sample and bit `2*i + 1` its
falling-edge sample, regardless of the physical pin order. -/
theorem c2_interleave (s : PState) (i : PIn) (r f k : Nat)
    (hs : s.fsm = .report) (hr : r < 8) (hf : f < 8) (hk : k < 3) :
    (pdmStep s i).channels = interleave s.pcR s.pcF
    ∧ (interleave r f).testBit (2 * k) = r.testBit k
    ∧ (interleave r f).testBit (2 * k + 1) = f.testBit k := by
  have hall : ∀ r' < 8, ∀ f' < 8, ∀ k' < 3,
      (interleave r' f').testBit (2 * k') = r'.testBit k'
      ∧ (interleave r' f').testBit (2 * k' + 1) = f'.testBit k' := by decide
  refine ⟨?_, (hall r hr f hf k hk).1, (hall r hr f hf k hk).2⟩
  obtain ⟨fsm, ch, pr, pf, c, cp⟩ := s
  cases fsm with
  | report => rfl
  | waitRise => simp at hs
  | waitFall => simp at hs

/-- C2 (witness): the interleave fact at a concrete state and sample pair
(`r = 5 = 0b101`, `f = 3 = 0b011`, channel 1). -/
theorem c2_witness :
    ((⟨.report, 0, 5, 3, 0, 0⟩ : PState).fsm = .report
      ∧ 5 < 8 ∧ 3 < 8 ∧ 1 < 3)
    ∧ ((pdmStep ⟨.report, 0, 5, 3, 0, 0⟩ ⟨false, false, 0⟩).channels
        = interleave (⟨.report, 0, 5, 3, 0, 0⟩ : PState).pcR
            (⟨.report, 0, 5, 3, 0, 0⟩ : PState).pcF
      ∧ (interleave 5 3).testBit (2 * 1) = (5 : Nat).testBit 1
      ∧ (interleave 5 3).testBit (2 * 1 + 1) = (3 : Nat).testBit 1) :=
  ⟨⟨rfl, by decide, by decide, by decide⟩,
    c2_interleave ⟨.report, 0, 5, 3, 0, 0⟩ ⟨false, false, 0⟩ 5 3 1 rfl
      (by decide) (by decide) (by decide)⟩

/-- C5: for every run shaped as a sequence of full bit-clock periods (and for
arbitrary pin inputs), the word consumed by the streamer at the falling-edge
strobe of period `j` is the interleaved pair captured during period `j - 1` —
exactly one sampling cycle of latency, introduced by the `REPORT` state — and
the first emitted word, before any real sampling, is all-zero. -/
theorem c5_latency (Ps : List Period) :
    pdmEmits initP (schedule Ps) = List.take Ps.length (0 :: Ps.map wordOf) := by
  have h0 : pdmEmits initP (schedule Ps)
      = pdmEmits ⟨.waitRise, interleave 0 0, 0, 0, 0, 0⟩ (schedAux Ps) := by
    rw [schedule, pdmEmits]
    simp [idleIn, initP, pdmStep]
  rw [h0, pdmEmits_periods]
  norm_num [interleave, bitv]

/-! ## Dead-register refinement (`counter_prev`) and full-system composition -/

/-- `PDMCaptureSubtarget` state with the `counter_prev` register removed. -/
structure PState2 where
  fsm : PFsm
  channels : Nat
  pcR : Nat
  pcF : Nat
  counter : Nat
  deriving DecidableEq

/-- Modelled variant of `pdmStep` with `counter_prev` (and its `REPORT`-state
latch `counter_prev.eq(counter)`) removed; everything else is unchanged. -/
def pdmStep2 : PState2 → PIn → PState2
  | ⟨.report, _ch, pr, pf, c⟩, _i => ⟨.waitRise, interleave pr pf, pr, pf, c⟩
  | ⟨.waitRise, ch, pr, pf, c⟩, i =>
      if i.stbR = true then ⟨.waitFall, ch, i.pins % 8, pf, c⟩
      else ⟨.waitRise, ch, pr, pf, c⟩
  | ⟨.waitFall, ch, pr, pf, c⟩, i =>
      if i.stbF = true then ⟨.report, ch, pr, i.pins % 8, (c + 1) % 64⟩
      else ⟨.waitFall, ch, pr, pf, c⟩

/-- Power-on state of the reduced design. -/
def initP2 : PState2 := ⟨.report, 0, 0, 0, 0⟩

/-- Forget the `counter_prev` register. -/
def erase (p : PState) : PState2 := ⟨p.fsm, p.channels, p.pcR, p.pcF, p.counter⟩

/-- Per-cycle inputs of the composed subtarget: the two clock strobes, the
synchronized pins, and the FIFO's `w_rdy`. -/
structure SysIn where
  stbR : Bool
  stbF : Bool
  pins : Nat
  wRdy : Bool
  deriving DecidableEq

/-- One cycle of the composed subtarget: the streamer (width `n * 2 = 6`)
sees `data = channels` and `strobe = stb_f` combinationally, then both
machines advance. Returns the byte written to the FIFO this cycle, if any. -/
def sysStep (p : PState) (st : StrFsm) (i : SysIn) :
    PState × StrFsm × Option Nat :=
  let r := streamerStep 6 st ⟨i.stbF, i.wRdy, p.channels⟩
  (pdmStep p ⟨i.stbR, i.stbF, i.pins⟩, r.1, r.2)

/-- Composed cycle for the reduced design. -/
def sysStep2 (p : PState2) (st : StrFsm) (i : SysIn) :
    PState2 × StrFsm × Option Nat :=
  let r := streamerStep 6 st ⟨i.stbF, i.wRdy, p.channels⟩
  (pdmStep2 p ⟨i.stbR, i.stbF, i.pins⟩, r.1, r.2)

/-- Byte stream written to the output FIFO by the full design. -/
def sysOuts (p : PState) (st : StrFsm) : List SysIn → List Nat
  | [] => []
  | i :: t =>
    match sysStep p st i with
    | (p', st', some b) => b :: sysOuts p' st' t
    | (p', st', none) => sysOuts p' st' t

/-- Byte stream written to the output FIFO by the reduced design. -/
def sysOuts2 (p : PState2) (st : StrFsm) : List SysIn → List Nat
  | [] => []
  | i :: t =>
    match sysStep2 p st i with
    | (p', st', some b) => b :: sysOuts2 p' st' t
    | (p', st', none) => sysOuts2 p' st' t

theorem pdmStep2_erase (p : PState) (i : PIn) :
    pdmStep2 (erase p) i = erase (pdmStep p i) := by
  obtain ⟨fsm, ch, pr, pf, c, cp⟩ := p
  cases fsm with
  | report => rfl
  | waitRise =>
    cases h : i.stbR with
    | false => simp [pdmStep, pdmStep2, erase, h]
    | true => simp [pdmStep, pdmStep2, erase, h]
  | waitFall =>
    cases h : i.stbF with
    | false => simp [pdmStep, pdmStep2, erase, h]
    | true => simp [pdmStep, pdmStep2, erase, h]

theorem sysOuts2_erase :
    ∀ (ins : List SysIn) (p : PState) (st : StrFsm),
      sysOuts2 (erase p) st ins = sysOuts p st ins := by
  intro ins
  induction ins with
  | nil => intro p st; rfl
  | cons i t ih =>
    intro p st
    have hch : (erase p).channels = p.channels := rfl
    rw [sysOuts, sysOuts2]
    simp only [sysStep, sysStep2, hch, pdmStep2_erase]
    cases hr : (streamerStep 6 st ⟨i.stbF, i.wRdy, p.channels⟩).2 with
    | none => simpa [hr] using ih (pdmStep p ⟨i.stbR, i.stbF, i.pins⟩) _
    | some b => simpa [hr] using ih (pdmStep p ⟨i.stbR, i.stbF, i.pins⟩) _

/-- C9: the design with the `counter_prev` register and its `REPORT`-state
latch removed is observationally equal to the design as written — for every
input sequence the byte stream written to the output FIFO is identical,
because `counter_prev` is latched but never read downstream. -/
theorem c9_counter_prev_dead (ins : List SysIn) :
    sysOuts2 initP2 .idle ins = sysOuts initP .idle ins :=
  sysOuts2_erase ins initP .idle

/-! ## Build-time width constraints (`add_build_arguments`) -/

/-- Width of the input pin set: `add_pin_set_argument(parser, "i", width=3)`. -/
def pinSetWidth : Nat := 3

/-- Bit indices of `pins_current` read by the `REPORT`-state `Cat`. -/
def permIndices : List Nat := [0, 3, 1, 4, 2, 5]

/-- Constraints a channel count `n` must satisfy for
`PDMCaptureSubtarget.elaborate` to be well-defined: the `FIFOStreamer`
constructor's `assert width > 0 and width <= 7` at `width = n * 2`, and every
`pins_current[j]` access of the permutation in bounds of the `2 * n`-wide
signal. -/
def buildOK (n : Nat) : Prop :=
  (0 < 2 * n ∧ 2 * n ≤ 7) ∧ ∀ j ∈ permIndices, j < 2 * n

instance : DecidablePred buildOK := fun n => by
  unfold buildOK; infer_instance

/-- C10: the applet always builds with a 3-wide pin set, for which
elaboration is well-defined; and well-definedness forces `n = 3` exactly —
the permutation's access to bit 5 needs `2 * n ≥ 6`, while the streamer's
width assertion needs `2 * n ≤ 7`. -/
theorem c10_build_width :
    buildOK pinSetWidth ∧ ∀ n : Nat, buildOK n ↔ n = 3 := by
  constructor
  · decide
  · intro n
    constructor
    · rintro ⟨⟨h1, h2⟩, h3⟩
      have h5 := h3 5 (by decide)
      omega
    · rintro rfl
      decide

/-! ## Host streaming consumer (`AudioPDMApplet.interact`)

The consumer is modelled over the finite list of chunks the transport
delivers. `iface.read()` on an exhausted (closed) transport raises, which the
spec directs to be treated as an ordinary failure inside the read step; the
model therefore maps chunk exhaustion to the exception path. `f.write` may
raise: the oracle `wf k` tells whether the `k`-th write call fails (an atomic
no-op then). Python's `try`/`except Exception`/`finally` becomes an
`Except`-valued body whose error and success results are both closed once. -/

/-- The destination file: bytes written so far and how many times the handle
has been closed. -/
structure FS where
  contents : List Nat
  closes : Nat
  deriving DecidableEq

/-- How a capture session ends: sentinel observed (loop broken, logged as an
overrun) or an exception caught by the `except` clause (read or write
failure, logged). -/
inductive Exit where
  | overrun
  | failed
  deriving DecidableEq

/-- `f.write(buffer)`: fails iff the oracle says the `k`-th write call fails;
on success appends and bumps the write-call counter. -/
def fwrite (wf : Nat → Bool) (k : Nat) (fs : FS) (b : List Nat) :
    Except FS (FS × Nat) :=
  if wf k = true then .error fs else .ok (⟨fs.contents ++ b, fs.closes⟩, k + 1)

/-- The `while not overrun` loop. Per chunk: empty reads `continue`; a chunk
containing the sentinel `0xFF` breaks out of the loop *before* `buffer +=
data`, returning the file, the buffer and the write counter; otherwise the
chunk is appended and, if the buffer now exceeds `1024 * 1024` bytes, it is
written out and cleared. Exhausting the transport raises on `iface.read()`. -/
def runLoop (wf : Nat → Bool) :
    List (List Nat) → FS → List Nat → Nat → Except FS (FS × List Nat × Nat)
  | [], fs, _, _ => .error fs
  | c :: rest, fs, buf, k =>
    if c.length = 0 then runLoop wf rest fs buf k
    else if 255 ∈ c then .ok (fs, buf, k)
    else
      if (buf ++ c).length > 1048576 then
        match fwrite wf k fs (buf ++ c) with
        | .error fs' => .error fs'
        | .ok (fs', k') => runLoop wf rest fs' [] k'
      else runLoop wf rest fs (buf ++ c) k

/-- After the loop broke on a sentinel: `if len(buffer) > 0: f.write(buffer)`
once, still inside the `try` block. -/
def finalFlush (wf : Nat → Bool) (fs : FS) (buf : List Nat) (k : Nat) :
    Except FS (FS × Exit) :=
  if buf.length > 0 then
    match fwrite wf k fs buf with
    | .error fs' => .error fs'
    | .ok (fs', _) => .ok (fs', .overrun)
  else .ok (fs, .overrun)

/-- The `try` block: run the loop, then — only when the loop exited via the
overrun `break` — flush a non-empty remaining buffer once. -/
def interactBody (wf : Nat → Bool) (chunks : List (List Nat)) :
    Except FS (FS × Exit) :=
  match runLoop wf chunks ⟨[], 0⟩ [] 0 with
  | .error fs => .error fs
  | .ok (fs, buf, k) => finalFlush wf fs buf k

/-- `f.close()`. -/
def fclose (fs : FS) : FS := ⟨fs.contents, fs.closes + 1⟩

/-- `AudioPDMApplet.interact`: open the file, run the `try` block, catch any
exception in the `except Exception` clause (logging it), and close the file
in the `finally` clause on both paths. Total by construction — no exception
propagates past it. -/
def interact (wf : Nat → Bool) (chunks : List (List Nat)) : FS × Exit :=
  match interactBody wf chunks with
  | .ok (fs, x) => (fclose fs, x)
  | .error fs => (fclose fs, .failed)

/-- Write oracle under which every write succeeds. -/
def wfNone : Nat → Bool := fun _ => false

/-- The bytes of all chunks accepted as data: every chunk strictly before the
first chunk containing the sentinel. -/
def acceptedBytes : List (List Nat) → List Nat
  | [] => []
  | c :: rest => if 255 ∈ c then [] else c ++ acceptedBytes rest

/-- Some chunk contains the sentinel. -/
def hasSentinel (chunks : List (List Nat)) : Prop := ∃ c ∈ chunks, 255 ∈ c

instance : DecidablePred hasSentinel := fun chunks => by
  unfold hasSentinel; infer_instance

theorem hasSentinel_cons {c : List Nat} {rest : List (List Nat)} :
    hasSentinel (c :: rest) ↔ 255 ∈ c ∨ hasSentinel rest := by
  simp [hasSentinel]

theorem runLoop_empty (wf : Nat → Bool) (c : List Nat)
    (rest : List (List Nat)) (fs : FS) (buf : List Nat) (k : Nat)
    (h : c.length = 0) :
    runLoop wf (c :: rest) fs buf k = runLoop wf rest fs buf k := by
  rw [runLoop, if_pos h]

theorem runLoop_sentinel (wf : Nat → Bool) (c : List Nat)
    (rest : List (List Nat)) (fs : FS) (buf : List Nat) (k : Nat)
    (h0 : ¬c.length = 0) (h : 255 ∈ c) :
    runLoop wf (c :: rest) fs buf k = .ok (fs, buf, k) := by
  rw [runLoop, if_neg h0, if_pos h]

theorem runLoop_flush (wf : Nat → Bool) (c : List Nat)
    (rest : List (List Nat)) (fs : FS) (buf : List Nat) (k : Nat)
    (h0 : ¬c.length = 0) (h : 255 ∉ c)
    (ht : (buf ++ c).length > 1048576) (hw : wf k = false) :
    runLoop wf (c :: rest) fs buf k
      = runLoop wf rest ⟨fs.contents ++ (buf ++ c), fs.closes⟩ [] (k + 1) := by
  have hw' : ¬wf k = true := by simp [hw]
  rw [runLoop, if_neg h0, if_neg h, if_pos ht, fwrite, if_neg hw']

theorem runLoop_write_fail (wf : Nat → Bool) (c : List Nat)
    (rest : List (List Nat)) (fs : FS) (buf : List Nat) (k : Nat)
    (h0 : ¬c.length = 0) (h : 255 ∉ c)
    (ht : (buf ++ c).length > 1048576) (hw : wf k = true) :
    runLoop wf (c :: rest) fs buf k = .error fs := by
  rw [runLoop, if_neg h0, if_neg h, if_pos ht, fwrite, if_pos hw]

theorem runLoop_small (wf : Nat → Bool) (c : List Nat)
    (rest : List (List Nat)) (fs : FS) (buf : List Nat) (k : Nat)
    (h0 : ¬c.length = 0) (h : 255 ∉ c)
    (ht : ¬(buf ++ c).length > 1048576) :
    runLoop wf (c :: rest) fs buf k = runLoop wf rest fs (buf ++ c) k := by
  rw [runLoop, if_neg h0, if_neg h, if_neg ht]

theorem interactBody_err (wf : Nat → Bool) (chunks : List (List Nat)) (fs : FS)
    (hr : runLoop wf chunks ⟨[], 0⟩ [] 0 = .error fs) :
    interactBody wf chunks = .error fs := by
  rw [interactBody, hr]

theorem interactBody_run_ok (wf : Nat → Bool) (chunks : List (List Nat))
    (fs : FS) (buf : List Nat) (k : Nat)
    (hr : runLoop wf chunks ⟨[], 0⟩ [] 0 = .ok (fs, buf, k)) :
    interactBody wf chunks = finalFlush wf fs buf k := by
  rw [interactBody, hr]

theorem interact_ok (wf : Nat → Bool) (chunks : List (List Nat)) (fs : FS)
    (x : Exit) (hb : interactBody wf chunks = .ok (fs, x)) :
    interact wf chunks = (fclose fs, x) := by
  rw [interact, hb]

theorem interact_err (wf : Nat → Bool) (chunks : List (List Nat)) (fs : FS)
    (hb : interactBody wf chunks = .error fs) :
    interact wf chunks = (fclose fs, .failed) := by
  rw [interact, hb]

/-- Number of closes recorded in a loop result. -/
def exClosesL : Except FS (FS × List Nat × Nat) → Nat
  | .ok (fs, _, _) => fs.closes
  | .error fs => fs.closes

/-- Number of closes recorded in a body result. -/
def exClosesB : Except FS (FS × Exit) → Nat
  | .ok (fs, _) => fs.closes
  | .error fs => fs.closes

theorem runLoop_closes (wf : Nat → Bool) :
    ∀ (chunks : List (List Nat)) (fs : FS) (buf : List Nat) (k : Nat),
      exClosesL (runLoop wf chunks fs buf k) = fs.closes := by
  intro chunks
  induction chunks with
  | nil => intro fs buf k; rfl
  | cons c rest ih =>
    intro fs buf k
    by_cases h0 : c.length = 0
    · rw [runLoop_empty wf c rest fs buf k h0]; exact ih fs buf k
    · by_cases hs : 255 ∈ c
      · rw [runLoop_sentinel wf c rest fs buf k h0 hs]; rfl
      · by_cases ht : (buf ++ c).length > 1048576
        · by_cases hw : wf k = true
          · rw [runLoop_write_fail wf c rest fs buf k h0 hs ht hw]; rfl
          · have hw' : wf k = false := by revert hw; cases wf k <;> simp
            rw [runLoop_flush wf c rest fs buf k h0 hs ht hw']
            exact ih _ [] (k + 1)
        · rw [runLoop_small wf c rest fs buf k h0 hs ht]
          exact ih fs (buf ++ c) k

theorem finalFlush_closes (wf : Nat → Bool) (fs : FS) (buf : List Nat)
    (k : Nat) : exClosesB (finalFlush wf fs buf k) = fs.closes := by
  by_cases hb : buf.length > 0
  · by_cases hw : wf k = true
    · rw [finalFlush, if_pos hb, fwrite, if_pos hw]; rfl
    · rw [finalFlush, if_pos hb, fwrite, if_neg hw]; rfl
  · rw [finalFlush, if_neg hb]; rfl

theorem interactBody_closes (wf : Nat → Bool) (chunks : List (List Nat)) :
    exClosesB (interactBody wf chunks) = 0 := by
  have h := runLoop_closes wf chunks ⟨[], 0⟩ [] 0
  cases hr : runLoop wf chunks ⟨[], 0⟩ [] 0 with
  | error fs =>
    rw [hr] at h
    rw [interactBody_err wf chunks fs hr]
    exact h
  | ok x =>
    obtain ⟨fs, buf, k⟩ := x
    rw [hr] at h
    rw [interactBody_run_ok wf chunks fs buf k hr, finalFlush_closes]
    exact h

/-- C7: on every exit path — overrun, read failure, write failure, under any
write-failure oracle and any chunk sequence — the file handle is closed
exactly once (`closes = 1`: no double-close, no leaked handle), and
`interact` always returns an ordinary result: it is a total function into
`FS × Exit`, the `except Exception` clause of the model catching the body's
error case, so no exception is re-raised past it. -/
theorem c7_close_once (chunks : List (List Nat)) (wf : Nat → Bool) :
    (interact wf chunks).1.closes = 1
    ∧ ((interact wf chunks).2 = .overrun ∨ (interact wf chunks).2 = .failed) := by
  have h := interactBody_closes wf chunks
  cases hb : interactBody wf chunks with
  | error fs =>
    rw [hb] at h
    rw [interact_err wf chunks fs hb]
    exact ⟨by simp [fclose]; exact h, Or.inr rfl⟩
  | ok x =>
    obtain ⟨fs, xit⟩ := x
    rw [hb] at h
    rw [interact_ok wf chunks fs xit hb]
    refine ⟨by simp [fclose]; exact h, ?_⟩
    cases xit with
    | overrun => exact Or.inl rfl
    | failed => exact Or.inr rfl

/-- C1 (counterexample): on the synthetic transport
`[b"", b"\x01\x02", b"\x03\xff\x04", b"\x05"]` the consumer writes exactly
`0x01 0x02` — not the `0x01 0x02 0x03` the claim requires: the sentinel check
runs before `buffer += data`, so the whole sentinel-bearing chunk is dropped,
its leading byte `0x03` included. -/
theorem c1_counterexample :
    interact wfNone [[], [1, 2], [3, 255, 4], [5]] = (⟨[1, 2], 1⟩, .overrun)
    ∧ (interact wfNone [[], [1, 2], [3, 255, 4], [5]]).1.contents ≠ [1, 2, 3] := by
  decide

/-- C1 (amended): when a chunk contains the sentinel anywhere, the loop exits
at once without writing *any* byte of that chunk — neither the bytes after
the sentinel nor those before it — and without reading later chunks; on the
synthetic transport the consumer hence writes exactly `0x01 0x02`, reports
the overrun, and never writes `0x03`, `0x04` or `0x05`. -/
theorem c1_sentinel_chunk (wf : Nat → Bool) (fs : FS) (buf : List Nat)
    (k : Nat) (c : List Nat) (rest : List (List Nat))
    (h : 255 ∈ c) :
    runLoop wf (c :: rest) fs buf k = .ok (fs, buf, k)
    ∧ interact wfNone [[], [1, 2], [3, 255, 4], [5]] = (⟨[1, 2], 1⟩, .overrun) := by
  constructor
  · have hne : ¬c.length = 0 := by
      cases c with
      | nil => simp at h
      | cons a t => simp
    exact runLoop_sentinel wf c rest fs buf k hne h
  · decide

/-- C1 (witness): the amended statement at a concrete sentinel chunk. -/
theorem c1_witness :
    (255 ∈ ([255] : List Nat))
    ∧ (runLoop wfNone ([255] :: []) ⟨[], 0⟩ [] 0 = .ok (⟨[], 0⟩, [], 0)
        ∧ interact wfNone [[], [1, 2], [3, 255, 4], [5]]
            = (⟨[1, 2], 1⟩, .overrun)) :=
  ⟨by decide, c1_sentinel_chunk wfNone ⟨[], 0⟩ [] 0 [255] [] (by decide)⟩

theorem runLoop_wfNone :
    ∀ (chunks : List (List Nat)) (fs : FS) (buf : List Nat) (k : Nat),
      hasSentinel chunks →
      ∃ fs' buf' k', runLoop wfNone chunks fs buf k = .ok (fs', buf', k')
        ∧ fs'.contents ++ buf' = fs.contents ++ buf ++ acceptedBytes chunks
        ∧ fs'.closes = fs.closes := by
  intro chunks
  induction chunks with
  | nil => intro fs buf k h; exact absurd h (by simp [hasSentinel])
  | cons c rest ih =>
    intro fs buf k h
    by_cases h0 : c.length = 0
    · have hc : c = [] := List.length_eq_zero.mp h0
      subst hc
      have h' : hasSentinel rest := by
        rcases hasSentinel_cons.mp h with hmem | h'
        · simp at hmem
        · exact h'
      obtain ⟨fs', buf', k', h1, h2, h3⟩ := ih fs buf k h'
      refine ⟨fs', buf', k', ?_, ?_, h3⟩
      · rw [runLoop_empty wfNone [] rest fs buf k rfl]; exact h1
      · rw [h2]; simp [acceptedBytes]
    · by_cases hs : 255 ∈ c
      · refine ⟨fs, buf, k, runLoop_sentinel wfNone c rest fs buf k h0 hs, ?_, rfl⟩
        simp [acceptedBytes, hs]
      · have h' : hasSentinel rest := by
          rcases hasSentinel_cons.mp h with hmem | h'
          · exact absurd hmem hs
          · exact h'
        by_cases ht : (buf ++ c).length > 1048576
        · obtain ⟨fs', buf', k', h1, h2, h3⟩ :=
            ih ⟨fs.contents ++ (buf ++ c), fs.closes⟩ [] (k + 1) h'
          refine ⟨fs', buf', k', ?_, ?_, ?_⟩
          · rw [runLoop_flush wfNone c rest fs buf k h0 hs ht rfl]; exact h1
          · rw [h2]; simp [acceptedBytes, hs]
          · rw [h3]
        · obtain ⟨fs', buf', k', h1, h2, h3⟩ := ih fs (buf ++ c) k h'
          refine ⟨fs', buf', k', ?_, ?_, h3⟩
          · rw [runLoop_small wfNone c rest fs buf k h0 hs ht]; exact h1
          · rw [h2]; simp [acceptedBytes, hs]

/-- C6 (counterexample): on exit through a write failure the buffered bytes
are *not* written — the final flush sits inside the `try` block and is
skipped once an exception is raised — so the file is not the concatenation of
the accepted chunks: with every write failing, chunks `[[7], [255]]` leave an
empty file although `0x07` was accepted as data. -/
theorem c6_counterexample :
    interact (fun _ => true) [[7], [255]] = (⟨[], 1⟩, .failed)
    ∧ acceptedBytes [[7], [255]] = [7]
    ∧ (interact (fun _ => true) [[7], [255]]).1.contents
        ≠ acceptedBytes [[7], [255]] := by
  decide

/-- C6 (amended): whenever appending a chunk pushes the buffer over the
1 MiB threshold and that write succeeds, the buffer's entire contents are
written and the buffer is cleared (second conjunct); and when no write fails
and some chunk carries the sentinel, the loop exits via the overrun `break`,
a non-empty remaining buffer is written exactly once, and the file is
byte-for-byte the concatenation of all chunks accepted as data (first
conjunct). On an exception exit (read or write failure) the unflushed tail
is lost, as the counterexample records. -/
theorem c6_flush (chunks : List (List Nat)) (wf : Nat → Bool) (fs : FS)
    (buf c : List Nat) (k : Nat) (rest : List (List Nat))
    (h1 : hasSentinel chunks)
    (h2 : 255 ∉ c) (h3 : ¬c.length = 0)
    (h4 : (buf ++ c).length > 1048576) (h5 : wf k = false) :
    interact wfNone chunks = (⟨acceptedBytes chunks, 1⟩, .overrun)
    ∧ runLoop wf (c :: rest) fs buf k
        = runLoop wf rest ⟨fs.contents ++ (buf ++ c), fs.closes⟩ [] (k + 1) := by
  refine ⟨?_, runLoop_flush wf c rest fs buf k h3 h2 h4 h5⟩
  obtain ⟨fs', buf', k', hr, hc, hcl⟩ := runLoop_wfNone chunks ⟨[], 0⟩ [] 0 h1
  simp only at hc hcl
  by_cases hb : buf'.length > 0
  · have hf : finalFlush wfNone fs' buf' k'
        = .ok (⟨fs'.contents ++ buf', fs'.closes⟩, .overrun) := by
      rw [finalFlush, if_pos hb, fwrite, if_neg (by simp [wfNone])]
    have hbody : interactBody wfNone chunks
        = .ok (⟨fs'.contents ++ buf', fs'.closes⟩, .overrun) := by
      rw [interactBody_run_ok wfNone chunks fs' buf' k' hr, hf]
    rw [interact_ok wfNone chunks ⟨fs'.contents ++ buf', fs'.closes⟩ .overrun hbody]
    rw [fclose]
    simp only [Prod.mk.injEq, FS.mk.injEq]
    refine ⟨⟨?_, by omega⟩, trivial⟩
    simpa using hc
  · have hb0 : buf' = [] := List.length_eq_zero.mp (by omega)
    subst hb0
    have hf : finalFlush wfNone fs' [] k' = .ok (fs', .overrun) := by
      rw [finalFlush, if_neg hb]
    have hbody : interactBody wfNone chunks = .ok (fs', .overrun) := by
      rw [interactBody_run_ok wfNone chunks fs' [] k' hr, hf]
    rw [interact_ok wfNone chunks fs' .overrun hbody]
    rw [fclose]
    simp only [Prod.mk.injEq, FS.mk.injEq]
    refine ⟨⟨?_, by omega⟩, trivial⟩
    simpa using hc

/-- C6 (witness): the amended statement at a concrete run and a concrete
above-threshold flush step. -/
theorem c6_witness :
    (hasSentinel [[1], [255]]
      ∧ 255 ∉ ([1] : List Nat)
      ∧ ¬([1] : List Nat).length = 0
      ∧ (List.replicate 1048577 0 ++ [1]).length > 1048576
      ∧ wfNone 0 = false)
    ∧ (interact wfNone [[1], [255]] = (⟨acceptedBytes [[1], [255]], 1⟩, .overrun)
      ∧ runLoop wfNone ([1] :: []) ⟨[], 0⟩ (List.replicate 1048577 0) 0
          = runLoop wfNone [] ⟨[] ++ (List.replicate 1048577 0 ++ [1]), 0⟩ []
              (0 + 1)) :=
  ⟨⟨by decide, by decide, by decide,
      by rw [List.length_append, List.length_replicate]; decide, rfl⟩,
    c6_flush [[1], [255]] wfNone ⟨[], 0⟩ (List.replicate 1048577 0) [1] 0 []
      (by decide) (by decide) (by decide)
      (by rw [List.length_append, List.length_replicate]; decide) rfl⟩

end PdmMic
